import Mathlib

/-!
Verification of the word-frequency map/shuffle/reduce pipeline
(`src/2word_frequency_analysis.py`) and of the asynchronous file sorter
(`src/1async_file_sorter.py`), shallowly embedded in Lean.

Text is modelled as `List Char`.  Python dictionaries that preserve
insertion order (`defaultdict`, `dict`) are modelled as association
lists with unique keys, in insertion order.
-/

/-- ASCII codes of the characters of Python's `string.punctuation`,
namely codes 33-47, 58-64, 91-96 and 123-126. -/
def punctuationCodes : List Nat :=
  [33, 34, 35, 36, 37, 38, 39, 40, 41, 42, 43, 44, 45, 46, 47,
   58, 59, 60, 61, 62, 63, 64,
   91, 92, 93, 94, 95, 96,
   123, 124, 125, 126]

/-- The characters of Python's `string.punctuation`. -/
def pythonPunctuation : List Char := punctuationCodes.map Char.ofNat

/-- Embedding of `remove_punctuation` (line 24):
`text.translate(str.maketrans('', '', string.punctuation))` deletes every
punctuation character and keeps everything else. -/
def remove_punctuation (text : List Char) : List Char :=
  text.filter (fun c => ! pythonPunctuation.contains c)

/-- Embedding of Python `str.lower` on the ASCII range: the characters the
claims exercise are ASCII, where `lower` maps A-Z to a-z and fixes the rest. -/
def pyToLower (c : Char) : Char :=
  if 'A' ≤ c ∧ c ≤ 'Z' then Char.ofNat (c.toNat + 32) else c

/-- Whitespace recognised by Python `str.split()` (ASCII range):
space, tab, newline, carriage return, vertical tab, form feed. -/
def isPySpace (c : Char) : Bool :=
  decide (c = ' ' ∨ c = '\t' ∨ c = '\n' ∨ c = '\r' ∨
          c = Char.ofNat 11 ∨ c = Char.ofNat 12)

/-- Worker for `pySplit`; `acc` holds the characters of the word currently
being read, in reverse order. -/
def splitAux : List Char → List Char → List (List Char)
  | [], acc => if acc.isEmpty then [] else [acc.reverse]
  | c :: cs, acc =>
    if isPySpace c then
      if acc.isEmpty then splitAux cs [] else acc.reverse :: splitAux cs []
    else
      splitAux cs (c :: acc)

/-- Embedding of Python `str.split()` with no separator: split on runs of
whitespace, discarding empty tokens. -/
def pySplit (text : List Char) : List (List Char) := splitAux text []

/-- The stop-word set of `map_reduce` (line 86), named `articles` in the
source. -/
def articles : List (List Char) :=
  ["the", "a", "an", "of", "to", "and", "in", "it", "that", "not",
   "as", "is", "at", "for", "but", "on", "or", "by", "from"].map
    (fun s => s.toList)

/-- The token list built by `map_reduce` lines 83-87: remove punctuation,
lowercase, split on whitespace, drop stop words. -/
def normalizedWords (text : List Char) : List (List Char) :=
  (pySplit ((remove_punctuation text).map pyToLower)).filter
    (fun w => ! articles.contains w)

/-- Embedding of `map_function` (line 35): each word becomes `(word, 1)`. -/
def map_function (word : List Char) : List Char × Nat := (word, 1)

/-- One `shuffled[key].append(value)` step of `shuffle_function` on an
insertion-ordered association list: append to the existing group of `key`,
or create a new group at the end. -/
def insertPair (key : List Char) (value : Nat) :
    List (List Char × List Nat) → List (List Char × List Nat)
  | [] => [(key, [value])]
  | (k, vs) :: rest =>
    if k = key then (k, vs ++ [value]) :: rest
    else (k, vs) :: insertPair key value rest

/-- The loop body of `shuffle_function` (lines 57-58). -/
def shuffleStep (acc : List (List Char × List Nat)) (kv : List Char × Nat) :
    List (List Char × List Nat) :=
  insertPair kv.1 kv.2 acc

/-- Embedding of `shuffle_function` (line 46): group the `(word, count)`
pairs by word with a `defaultdict(list)`, which preserves first-occurrence
key order. -/
def shuffle_function (mapped_values : List (List Char × Nat)) :
    List (List Char × List Nat) :=
  mapped_values.foldl shuffleStep []

/-- Embedding of `reduce_function` (line 61): sum the counts of one group. -/
def reduce_function (key_values : List Char × List Nat) : List Char × Nat :=
  (key_values.1, key_values.2.sum)

/-- The map, shuffle and reduce stages of `map_reduce` (lines 89-100)
applied to an arbitrary token list.  `executor.map` returns results in
input order, and `dict` over the unique-keyed reduced list is the
association list itself. -/
def mapShuffleReduce (words : List (List Char)) : List (List Char × Nat) :=
  (shuffle_function (words.map map_function)).map reduce_function

/-- Embedding of `map_reduce` (line 73). -/
def map_reduce (text : List Char) : List (List Char × Nat) :=
  mapShuffleReduce (normalizedWords text)

/-- The example input text of the specification. -/
def exampleText : List Char := "The cat sat on the cat mat. A CAT ran!".toList

/-- The FrequencyResult of the example input text. -/
def exampleResult : List (List Char × Nat) :=
  [("cat".toList, 3), ("sat".toList, 1), ("mat".toList, 1), ("ran".toList, 1)]

/-- Lookup in a word-to-count association list (the mapping a Python
`dict` denotes). -/
def lookupCount (key : List Char) : List (List Char × Nat) → Option Nat
  | [] => none
  | (k, v) :: rest => if k = key then some v else lookupCount key rest

/-- Lookup in a word-to-counts association list (the mapping the
shuffler's `defaultdict` denotes). -/
def lookupGroup (key : List Char) : List (List Char × List Nat) → Option (List Nat)
  | [] => none
  | (k, vs) :: rest => if k = key then some vs else lookupGroup key rest

/-- The values attached to `key` in a list of pairs, in order. -/
def valuesFor (key : List Char) : List (List Char × Nat) → List Nat
  | [] => []
  | (k, v) :: rest =>
    if k = key then v :: valuesFor key rest else valuesFor key rest

/-- One step of first-occurrence deduplication. -/
def focStep (ks : List (List Char)) (a : List Char) : List (List Char) :=
  if a ∈ ks then ks else ks ++ [a]

/-- The distinct elements of a list, in order of first occurrence. -/
def firstOccurrences (l : List (List Char)) : List (List Char) :=
  l.foldl focStep []

theorem lookupGroup_insertPair_self (k : List Char) (v : Nat)
    (acc : List (List Char × List Nat)) :
    lookupGroup k (insertPair k v acc) =
      some ((lookupGroup k acc).getD [] ++ [v]) := by
  induction acc with
  | nil => simp [insertPair, lookupGroup]
  | cons p rest ih =>
    obtain ⟨k₀, vs⟩ := p
    by_cases h : k₀ = k
    · subst h
      simp [insertPair, lookupGroup]
    · simp [insertPair, lookupGroup, h, ih]

theorem lookupGroup_insertPair_ne (k k₁ : List Char) (v : Nat)
    (acc : List (List Char × List Nat)) (h : k₁ ≠ k) :
    lookupGroup k (insertPair k₁ v acc) = lookupGroup k acc := by
  induction acc with
  | nil => simp [insertPair, lookupGroup, h]
  | cons p rest ih =>
    obtain ⟨k₀, vs⟩ := p
    by_cases h₀ : k₀ = k₁
    · subst h₀
      simp [insertPair, lookupGroup, h]
    · simp [insertPair, lookupGroup, h₀, ih]

theorem lookupGroup_shuffleFold (l : List (List Char × Nat)) :
    ∀ (acc : List (List Char × List Nat)) (k : List Char),
      lookupGroup k (l.foldl shuffleStep acc) =
        match lookupGroup k acc with
        | some vs => some (vs ++ valuesFor k l)
        | none =>
          if valuesFor k l = [] then none else some (valuesFor k l) := by
  induction l with
  | nil =>
    intro acc k
    cases h : lookupGroup k acc <;> simp [valuesFor, h]
  | cons p rest ih =>
    intro acc k
    obtain ⟨k₁, v⟩ := p
    by_cases hk : k₁ = k
    · subst hk
      rw [List.foldl_cons]
      rw [ih (shuffleStep acc (k₁, v)) k₁]
      rw [show shuffleStep acc (k₁, v) = insertPair k₁ v acc from rfl]
      rw [lookupGroup_insertPair_self]
      cases h : lookupGroup k₁ acc <;>
        simp [valuesFor, h, List.append_assoc]
    · rw [List.foldl_cons]
      rw [ih (shuffleStep acc (k₁, v)) k]
      rw [show shuffleStep acc (k₁, v) = insertPair k₁ v acc from rfl]
      rw [lookupGroup_insertPair_ne k k₁ v acc hk]
      simp [valuesFor, hk]

/-- Lookup of a word in the output of the shuffler: exactly the word's
value sequence from the mapped pairs, when non-empty. -/
theorem lookupGroup_shuffle (l : List (List Char × Nat)) (k : List Char) :
    lookupGroup k (shuffle_function l) =
      if valuesFor k l = [] then none else some (valuesFor k l) := by
  have h := lookupGroup_shuffleFold l [] k
  simpa [shuffle_function, lookupGroup] using h

theorem lookupCount_map_reduce_groups (groups : List (List Char × List Nat))
    (k : List Char) :
    lookupCount k (groups.map reduce_function) =
      (lookupGroup k groups).map List.sum := by
  induction groups with
  | nil => simp [lookupCount, lookupGroup]
  | cons p rest ih =>
    obtain ⟨k₀, vs⟩ := p
    by_cases h : k₀ = k
    · subst h
      simp [lookupCount, lookupGroup, reduce_function]
    · simp [lookupCount, lookupGroup, reduce_function, h, ih]

/-- In the mapped pair list of a token list, the values attached to a word
are one `1` per occurrence of the word. -/
theorem valuesFor_map_function (ws : List (List Char)) (k : List Char) :
    valuesFor k (ws.map map_function) = List.replicate (ws.count k) 1 := by
  induction ws with
  | nil => simp [valuesFor]
  | cons w rest ih =>
    by_cases h : w = k
    · subst h
      simp [map_function, valuesFor, ih, List.count_cons, List.replicate_succ]
    · simp [map_function, valuesFor, ih, List.count_cons, h]

/-- The count the pipeline assigns to a word is its occurrence count in
the token list (absent words are absent keys). -/
theorem lookupCount_mapShuffleReduce (ws : List (List Char)) (k : List Char) :
    lookupCount k (mapShuffleReduce ws) =
      if ws.count k = 0 then none else some (ws.count k) := by
  rw [mapShuffleReduce, lookupCount_map_reduce_groups, lookupGroup_shuffle,
    valuesFor_map_function]
  by_cases h : ws.count k = 0
  · simp [h]
  · simp [h, List.replicate_eq_nil_iff]

/-- The grand total of counts in a grouped association list. -/
def totalVals (groups : List (List Char × List Nat)) : Nat :=
  (groups.map (fun g => g.2.sum)).sum

theorem totalVals_insertPair (k : List Char) (v : Nat)
    (acc : List (List Char × List Nat)) :
    totalVals (insertPair k v acc) = totalVals acc + v := by
  induction acc with
  | nil => simp [insertPair, totalVals]
  | cons p rest ih =>
    obtain ⟨k₀, vs⟩ := p
    by_cases h : k₀ = k
    · subst h
      simp [insertPair, totalVals]
      omega
    · simp [insertPair, totalVals, h] at ih ⊢
      omega

theorem totalVals_shuffleFold (l : List (List Char × Nat)) :
    ∀ acc, totalVals (l.foldl shuffleStep acc) =
      totalVals acc + (l.map Prod.snd).sum := by
  induction l with
  | nil => intro acc; simp
  | cons p rest ih =>
    intro acc
    obtain ⟨k, v⟩ := p
    rw [List.foldl_cons]
    rw [ih (shuffleStep acc (k, v))]
    rw [show shuffleStep acc (k, v) = insertPair k v acc from rfl]
    rw [totalVals_insertPair]
    simp
    omega

/-- The shuffler preserves the grand total of counts. -/
theorem totalVals_shuffle (l : List (List Char × Nat)) :
    totalVals (shuffle_function l) = (l.map Prod.snd).sum := by
  have h := totalVals_shuffleFold l []
  simpa [shuffle_function, totalVals] using h

theorem keys_insertPair (k : List Char) (v : Nat)
    (acc : List (List Char × List Nat)) :
    (insertPair k v acc).map Prod.fst = focStep (acc.map Prod.fst) k := by
  induction acc with
  | nil => simp [insertPair, focStep]
  | cons p rest ih =>
    obtain ⟨k₀, vs⟩ := p
    by_cases h : k₀ = k
    · subst h
      simp [insertPair, focStep]
    · by_cases hmem : k ∈ rest.map Prod.fst
      · simp [insertPair, focStep, h, hmem, Ne.symm h] at ih ⊢
        simpa [focStep, hmem] using ih
      · simp [insertPair, focStep, h, hmem, Ne.symm h] at ih ⊢
        simpa [focStep, hmem] using ih

theorem keys_shuffleFold (l : List (List Char × Nat)) :
    ∀ acc, (l.foldl shuffleStep acc).map Prod.fst =
      (l.map Prod.fst).foldl focStep (acc.map Prod.fst) := by
  induction l with
  | nil => intro acc; simp
  | cons p rest ih =>
    intro acc
    obtain ⟨k, v⟩ := p
    rw [List.foldl_cons]
    rw [ih (shuffleStep acc (k, v))]
    rw [show shuffleStep acc (k, v) = insertPair k v acc from rfl]
    rw [keys_insertPair]
    simp

/-- The shuffler's keys are the distinct words, in first-occurrence order. -/
theorem keys_shuffle (l : List (List Char × Nat)) :
    (shuffle_function l).map Prod.fst = firstOccurrences (l.map Prod.fst) := by
  have h := keys_shuffleFold l []
  simpa [shuffle_function, firstOccurrences] using h

theorem nodup_focFold (l : List (List Char)) :
    ∀ ks, ks.Nodup → (l.foldl focStep ks).Nodup := by
  induction l with
  | nil => intro ks h; simpa using h
  | cons a rest ih =>
    intro ks h
    rw [List.foldl_cons]
    apply ih
    by_cases hmem : a ∈ ks
    · simpa [focStep, hmem] using h
    · simp [focStep, hmem, List.nodup_append, h]

theorem mem_focFold (l : List (List Char)) :
    ∀ ks x, x ∈ l.foldl focStep ks → x ∈ ks ∨ x ∈ l := by
  induction l with
  | nil => intro ks x h; simp at h; exact Or.inl h
  | cons a rest ih =>
    intro ks x h
    rw [List.foldl_cons] at h
    rcases ih (focStep ks a) x h with h₁ | h₁
    · by_cases hmem : a ∈ ks
      · simp [focStep, hmem] at h₁
        exact Or.inl h₁
      · simp [focStep, hmem] at h₁
        rcases h₁ with h₂ | h₂
        · exact Or.inl h₂
        · subst h₂; simp
    · simp [h₁]

theorem sum_map_one (ws : List (List Char)) :
    (ws.map (fun _ => (1 : Nat))).sum = ws.length := by
  induction ws with
  | nil => simp
  | cons w rest ih => simp [ih]; omega

/-- In the mapped pair list of a token list, the values attached to a word
form one `1` per occurrence of the word among the keys, whenever every
mapped count is `1`. -/
theorem valuesFor_all_one (l : List (List Char × Nat))
    (h : ∀ p ∈ l, p.2 = 1) (k : List Char) :
    valuesFor k l = List.replicate ((l.map Prod.fst).count k) 1 := by
  induction l with
  | nil => simp [valuesFor]
  | cons p rest ih =>
    obtain ⟨k₀, v⟩ := p
    have hv : v = 1 := h (k₀, v) (List.mem_cons_self _ _)
    have hrest : ∀ p ∈ rest, p.2 = 1 := fun p hp => h p (List.mem_cons_of_mem _ hp)
    subst hv
    by_cases hk : k₀ = k
    · subst hk
      simp [valuesFor, ih hrest, List.count_cons, List.replicate_succ]
    · simp [valuesFor, ih hrest, List.count_cons, hk]

/-- Claim C1 — count conservation: for every input text, the counts in the
FrequencyResult returned by `map_reduce` sum to the number of tokens left
after punctuation removal, lowercasing, whitespace splitting and stop-word
removal. -/
theorem c1_count_conservation (text : List Char) :
    ((map_reduce text).map Prod.snd).sum = (normalizedWords text).length := by
  rw [map_reduce, mapShuffleReduce, List.map_map]
  have h1 : ((shuffle_function ((normalizedWords text).map map_function)).map
      (Prod.snd ∘ reduce_function)).sum =
      totalVals (shuffle_function ((normalizedWords text).map map_function)) := rfl
  rw [h1, totalVals_shuffle, List.map_map]
  have h2 : (normalizedWords text).map (Prod.snd ∘ map_function) =
      (normalizedWords text).map (fun _ => (1 : Nat)) := rfl
  rw [h2, sum_map_one]

/-- Claim C2 — stop-word exclusion: no stop word of the fixed set ever
appears as a key of the FrequencyResult returned by `map_reduce`, for any
input text (hence regardless of casing or adjacent punctuation). -/
theorem c2_stop_word_exclusion (text : List Char) (w : List Char)
    (hw : w ∈ (map_reduce text).map Prod.fst) : w ∉ articles := by
  rw [map_reduce, mapShuffleReduce, List.map_map] at hw
  have h1 : (shuffle_function ((normalizedWords text).map map_function)).map
      (Prod.fst ∘ reduce_function) =
      (shuffle_function ((normalizedWords text).map map_function)).map
        Prod.fst := rfl
  rw [h1, keys_shuffle, List.map_map] at hw
  have h2 : (normalizedWords text).map (Prod.fst ∘ map_function) =
      normalizedWords text := List.map_id _
  rw [h2] at hw
  have h3 := mem_focFold (normalizedWords text) [] w hw
  simp at h3
  rw [normalizedWords] at h3
  have h4 := List.of_mem_filter h3
  simpa using h4

/-- A small input exhibiting claim C2 at work: the key "cat" of
`map_reduce "The cat"` is not a stop word. -/
theorem c2_stop_word_exclusion_witness :
    ("cat".toList ∈ (map_reduce ("The cat".toList)).map Prod.fst) ∧
      "cat".toList ∉ articles :=
  ⟨by decide, c2_stop_word_exclusion ("The cat".toList) ("cat".toList) (by decide)⟩

/-- Claim C3 — the worked example: on input
"The cat sat on the cat mat. A CAT ran!" the normalizer yields exactly
[cat, sat, cat, mat, cat, ran] and `map_reduce` returns exactly
{cat: 3, sat: 1, mat: 1, ran: 1}. -/
theorem c3_worked_example :
    normalizedWords exampleText =
      ["cat".toList, "sat".toList, "cat".toList, "mat".toList,
       "cat".toList, "ran".toList] ∧
    map_reduce exampleText = exampleResult := by
  constructor <;> decide

/-- Claim C4 — commutativity: permuting the token sequence fed to the
map, shuffle and reduce stages leaves the final word-to-count mapping
unchanged (as a mapping: every lookup agrees). -/
theorem c4_permutation_invariance (ws ws' : List (List Char))
    (h : List.Perm ws ws') (k : List Char) :
    lookupCount k (mapShuffleReduce ws) = lookupCount k (mapShuffleReduce ws') := by
  rw [lookupCount_mapShuffleReduce, lookupCount_mapShuffleReduce,
    show ws.count k = ws'.count k from h.countP_eq _]

/-- A concrete instance of claim C4: swapping two tokens does not change
the count looked up for "cat". -/
theorem c4_permutation_invariance_witness :
    List.Perm ["cat".toList, "dog".toList] ["dog".toList, "cat".toList] ∧
    lookupCount "cat".toList (mapShuffleReduce ["cat".toList, "dog".toList]) =
      lookupCount "cat".toList (mapShuffleReduce ["dog".toList, "cat".toList]) :=
  ⟨by decide,
   c4_permutation_invariance ["cat".toList, "dog".toList]
     ["dog".toList, "cat".toList] (by decide) ("cat".toList)⟩

/-- Claim C5 — empty input: `map_reduce` on the empty string returns the
empty mapping (and, being a total function of the embedding, raises no
error). -/
theorem c5_empty_input : map_reduce ("".toList) = [] := rfl

/-- Claim C6 — shuffler structure: on any list of mapped pairs whose
counts are all 1, the shuffler has unique keys, its keys are the distinct
words in first-occurrence order (groups are created at a word's first
occurrence and appended to afterwards), and each word's group holds
exactly one `1` per occurrence of that word. -/
theorem c6_shuffler_groups (l : List (List Char × Nat))
    (h : ∀ p ∈ l, p.2 = 1) :
    ((shuffle_function l).map Prod.fst).Nodup ∧
    (shuffle_function l).map Prod.fst = firstOccurrences (l.map Prod.fst) ∧
    (∀ k, k ∈ l.map Prod.fst →
      lookupGroup k (shuffle_function l) =
        some (List.replicate ((l.map Prod.fst).count k) 1)) := by
  refine ⟨?_, keys_shuffle l, ?_⟩
  · rw [keys_shuffle, firstOccurrences]
    exact nodup_focFold _ _ (List.nodup_nil)
  · intro k hk
    rw [lookupGroup_shuffle, valuesFor_all_one l h k]
    have hc : (l.map Prod.fst).count k ≠ 0 := by
      intro h0
      exact (List.count_eq_zero.mp h0) hk
    simp [List.replicate_eq_nil_iff, hc]

/-- The mapped pair list used to witness claim C6. -/
def c6ExampleInput : List (List Char × Nat) :=
  [("cat".toList, 1), ("dog".toList, 1), ("cat".toList, 1)]

/-- A concrete instance of claim C6 on the pairs of [cat, dog, cat]. -/
theorem c6_shuffler_groups_witness :
    (∀ p ∈ c6ExampleInput, p.2 = 1) ∧
    (((shuffle_function c6ExampleInput).map Prod.fst).Nodup ∧
     (shuffle_function c6ExampleInput).map Prod.fst =
       firstOccurrences (c6ExampleInput.map Prod.fst) ∧
     (∀ k, k ∈ c6ExampleInput.map Prod.fst →
       lookupGroup k (shuffle_function c6ExampleInput) =
         some (List.replicate ((c6ExampleInput.map Prod.fst).count k) 1))) :=
  ⟨by decide, c6_shuffler_groups c6ExampleInput (by decide)⟩

/-- Insertion step of the stable descending-by-count sort: the new element
goes in front of the first earlier element whose count is not larger, so
among equal counts earlier input stays earlier. -/
def insertByCountDesc (a : List Char × Nat) :
    List (List Char × Nat) → List (List Char × Nat)
  | [] => [a]
  | b :: rest =>
    if b.2 ≤ a.2 then a :: b :: rest else b :: insertByCountDesc a rest

/-- Embedding of `sorted(result.items(), key=lambda item: item[1],
reverse=True)` (line 110): Python's `sorted` is a stable sort, modelled as
a stable insertion sort by descending count. -/
def sortByCountDesc : List (List Char × Nat) → List (List Char × Nat)
  | [] => []
  | a :: rest => insertByCountDesc a (sortByCountDesc rest)

/-- Embedding of the Python slice `l[:n]` for an arbitrary integer `n`:
a nonnegative bound keeps the first `n` elements, a negative bound drops
the last `-n`. -/
def pyTake (n : Int) (l : List α) : List α :=
  if 0 ≤ n then l.take n.toNat else l.take (l.length - (-n).toNat)

/-- Embedding of `visualize_top_words` (line 102) up to its side effects:
sort by descending count, slice the first `top_n` entries, then unpack
`words, frequencies = zip(*sorted_words)`.  Unpacking an empty sequence
raises a ValueError, modelled as `none`; otherwise the function renders
the chart from the word list and the frequency list. -/
def visualize_top_words (result : List (List Char × Nat)) (top_n : Int) :
    Option (List (List Char) × List Nat) :=
  let sorted_words := pyTake top_n (sortByCountDesc result)
  if sorted_words.isEmpty then none
  else some (sorted_words.map Prod.fst, sorted_words.map Prod.snd)

theorem insertByCountDesc_perm (a : List Char × Nat)
    (l : List (List Char × Nat)) :
    List.Perm (insertByCountDesc a l) (a :: l) := by
  induction l with
  | nil => simp [insertByCountDesc]
  | cons b rest ih =>
    rw [insertByCountDesc]
    by_cases h : b.2 ≤ a.2
    · simp [h]
    · simp only [h, if_false]
      exact ((ih.cons b).trans (List.Perm.swap a b rest))

theorem sortByCountDesc_perm (l : List (List Char × Nat)) :
    List.Perm (sortByCountDesc l) l := by
  induction l with
  | nil => simp [sortByCountDesc]
  | cons a rest ih =>
    rw [sortByCountDesc]
    exact (insertByCountDesc_perm a (sortByCountDesc rest)).trans (ih.cons a)

theorem insertByCountDesc_sorted (a : List Char × Nat)
    (l : List (List Char × Nat))
    (h : List.Sorted (fun x y : List Char × Nat => y.2 ≤ x.2) l) :
    List.Sorted (fun x y : List Char × Nat => y.2 ≤ x.2)
      (insertByCountDesc a l) := by
  induction l with
  | nil => simp [insertByCountDesc]
  | cons b rest ih =>
    rw [List.sorted_cons] at h
    rw [insertByCountDesc]
    by_cases hba : b.2 ≤ a.2
    · simp only [hba, if_true]
      rw [List.sorted_cons]
      refine ⟨?_, List.sorted_cons.mpr h⟩
      intro x hx
      rcases List.mem_cons.mp hx with hx | hx
      · subst hx; exact hba
      · exact le_trans (h.1 x hx) hba
    · simp only [hba, if_false]
      rw [List.sorted_cons]
      refine ⟨?_, ih h.2⟩
      intro x hx
      have hx' := (insertByCountDesc_perm a rest).mem_iff.mp hx
      rcases List.mem_cons.mp hx' with hx' | hx'
      · subst hx'
        exact Nat.le_of_lt (Nat.lt_of_not_le hba)
      · exact h.1 x hx'

/-- The output of the model of Python `sorted(..., reverse=True)` is
sorted by descending count. -/
theorem sortByCountDesc_sorted (l : List (List Char × Nat)) :
    List.Sorted (fun x y : List Char × Nat => y.2 ≤ x.2)
      (sortByCountDesc l) := by
  induction l with
  | nil => simp [sortByCountDesc]
  | cons a rest ih =>
    rw [sortByCountDesc]
    exact insertByCountDesc_sorted a _ ih

theorem insertByCountDesc_filter_pos (a : List Char × Nat) (c : Nat)
    (l : List (List Char × Nat)) (hc : a.2 = c) :
    (insertByCountDesc a l).filter (fun p => decide (p.2 = c)) =
      a :: l.filter (fun p => decide (p.2 = c)) := by
  induction l with
  | nil => simp [insertByCountDesc, hc]
  | cons b rest ih =>
    rw [insertByCountDesc]
    by_cases hba : b.2 ≤ a.2
    · rw [if_pos hba]
      simp [List.filter_cons, hc]
    · rw [if_neg hba]
      have hbc : ¬ b.2 = c := by omega
      simp [List.filter_cons, hbc, ih]

theorem insertByCountDesc_filter_neg (a : List Char × Nat) (c : Nat)
    (l : List (List Char × Nat)) (hc : ¬ a.2 = c) :
    (insertByCountDesc a l).filter (fun p => decide (p.2 = c)) =
      l.filter (fun p => decide (p.2 = c)) := by
  induction l with
  | nil => simp [insertByCountDesc, hc]
  | cons b rest ih =>
    rw [insertByCountDesc]
    by_cases hba : b.2 ≤ a.2
    · rw [if_pos hba]
      simp [List.filter_cons, hc]
    · rw [if_neg hba]
      simp [List.filter_cons, ih]

/-- Stability of the sort: the entries carrying any fixed count keep
their original relative order. -/
theorem sortByCountDesc_stable (l : List (List Char × Nat)) (c : Nat) :
    (sortByCountDesc l).filter (fun p => decide (p.2 = c)) =
      l.filter (fun p => decide (p.2 = c)) := by
  induction l with
  | nil => simp [sortByCountDesc]
  | cons a rest ih =>
    rw [sortByCountDesc]
    by_cases hc : a.2 = c
    · rw [insertByCountDesc_filter_pos a c _ hc, ih]
      simp [List.filter_cons, hc]
    · rw [insertByCountDesc_filter_neg a c _ hc, ih]
      simp [List.filter_cons, hc]

/-- Claim C7 (amended) — presentation: for every non-empty FrequencyResult
and every integer top_n ≥ 1, `visualize_top_words` renders the first
`top_n` entries of the stable descending-by-count sort of the result:
that sort is ordered by descending count, is a permutation of the result,
and breaks ties by first-encountered order (entries of any fixed count
keep their relative order); and on the example result with top_n = 2 the
word "cat" ranks first. -/
theorem c7_presentation :
    (∀ (r : List (List Char × Nat)) (n : Int), r ≠ [] → 1 ≤ n →
      visualize_top_words r n =
        some (((sortByCountDesc r).take n.toNat).map Prod.fst,
              ((sortByCountDesc r).take n.toNat).map Prod.snd) ∧
      List.Sorted (fun x y : List Char × Nat => y.2 ≤ x.2)
        (sortByCountDesc r) ∧
      List.Perm (sortByCountDesc r) r ∧
      (∀ c : Nat, (sortByCountDesc r).filter (fun p => decide (p.2 = c)) =
        r.filter (fun p => decide (p.2 = c)))) ∧
    (visualize_top_words exampleResult 2).map (fun out => out.1.head?) =
      some (some ("cat".toList)) := by
  constructor
  · intro r n hr hn
    refine ⟨?_, sortByCountDesc_sorted r, sortByCountDesc_perm r,
      sortByCountDesc_stable r⟩
    have h0 : (0 : Int) ≤ n := by omega
    have hpy : pyTake n (sortByCountDesc r) =
        (sortByCountDesc r).take n.toNat := by
      simp [pyTake, h0]
    have hlen : (sortByCountDesc r).length = r.length :=
      (sortByCountDesc_perm r).length_eq
    have hne : (sortByCountDesc r).take n.toNat ≠ [] := by
      intro hnil
      rw [List.take_eq_nil_iff] at hnil
      rcases hnil with hnil | hnil
      · omega
      · have hp := sortByCountDesc_perm r
        rw [hnil] at hp
        exact hr hp.nil_eq.symm
    rw [visualize_top_words]
    simp only [hpy]
    simp [List.isEmpty_iff, hne]
  · decide

/-- A concrete instance of claim C7 on the example result with top_n = 2. -/
theorem c7_presentation_witness :
    (exampleResult ≠ [] ∧ (1 : Int) ≤ 2) ∧
    (visualize_top_words exampleResult 2 =
        some (((sortByCountDesc exampleResult).take (Int.toNat 2)).map Prod.fst,
              ((sortByCountDesc exampleResult).take (Int.toNat 2)).map Prod.snd) ∧
      List.Sorted (fun x y : List Char × Nat => y.2 ≤ x.2)
        (sortByCountDesc exampleResult) ∧
      List.Perm (sortByCountDesc exampleResult) exampleResult ∧
      (∀ c : Nat,
        (sortByCountDesc exampleResult).filter (fun p => decide (p.2 = c)) =
          exampleResult.filter (fun p => decide (p.2 = c)))) :=
  ⟨⟨by decide, by decide⟩,
   c7_presentation.1 exampleResult 2 (by decide) (by decide)⟩

/-- Claim C7 as stated is false: top_n = 0 is an integer and the example
FrequencyResult is non-empty, yet the presentation step raises (the
slice is empty, so `zip(*sorted_words)` unpacks zero values) instead of
selecting zero pairs. -/
theorem c7_counterexample : visualize_top_words exampleResult 0 = none := by
  decide

/-- Claim C10 — `visualize_top_words` fails on an empty FrequencyResult
for every integer top_n (unpacking zero pairs raises), and succeeds only
on a non-empty result. -/
theorem c10_empty_result_error :
    (∀ n : Int, visualize_top_words [] n = none) ∧
    (∀ (r : List (List Char × Nat)) (n : Int)
      (out : List (List Char) × List Nat),
      visualize_top_words r n = some out → r ≠ []) := by
  constructor
  · intro n
    simp [visualize_top_words, sortByCountDesc, pyTake]
  · intro r n out h hr
    subst hr
    simp [visualize_top_words, sortByCountDesc, pyTake] at h

/-- A concrete instance of claim C10's non-empty direction. -/
theorem c10_empty_result_error_witness :
    visualize_top_words exampleResult 2 =
      some (["cat".toList, "sat".toList], [3, 1]) ∧
    exampleResult ≠ [] :=
  ⟨by decide,
   c10_empty_result_error.2 exampleResult 2
     (["cat".toList, "sat".toList], [3, 1]) (by decide)⟩

/-!
Embedding of the asynchronous file sorter (`src/1async_file_sorter.py`).
The outcome of each fallible filesystem operation (directory creation,
file read/write) is passed in as a parameter: `ok` models normal
completion, `exn` models a raised exception with its message.
-/

/-- Outcome of one Python operation: a value, or a raised exception. -/
inductive PyResult (α : Type) : Type
  | ok (val : α)
  | exn (message : List Char)
deriving DecidableEq

/-- A file found by `os.walk`: the directory part and the file name. -/
structure SourcePath : Type where
  dir : List Char
  name : List Char
deriving DecidableEq

/-- A log line written by the sorter, carrying the data interpolated into
the `logger.info` and `logger.error` format strings of lines 36 and 38. -/
inductive LogEntry : Type
  | info (source : SourcePath) (destination : List (List Char))
  | error (source : SourcePath) (message : List Char)
deriving DecidableEq

/-- Index of the last dot in a file name, the model of Python
`name.rfind(".")` with absence as `none`. -/
def rfindDot : List Char → Option Nat
  | [] => none
  | c :: cs =>
    match rfindDot cs with
    | some i => some (i + 1)
    | none => if c = '.' then some 0 else none

/-- Embedding of `pathlib` `PurePath.suffix`: the part of the name from
its last dot, empty when the last dot is absent, leading, or trailing. -/
def pySuffix (name : List Char) : List Char :=
  match rfindDot name with
  | none => []
  | some i => if 0 < i ∧ i < name.length - 1 then name.drop i else []

/-- The literal subfolder name used for files without an extension. -/
def noExtensionFolder : List Char := "no_extension".toList

/-- Embedding of line 23,
`extension = source_path.suffix[1:] or "no_extension"`:
the suffix without its leading dot, or the fallback when that is empty. -/
def extensionFolder (name : List Char) : List Char :=
  let ext := (pySuffix name).drop 1
  if ext = [] then noExtensionFolder else ext

/-- The body of `copy_file` (lines 21-36): compute the destination path
from the extension, create the directory, copy the bytes, log success;
any exception propagates out of the body. -/
def copy_file_body (mkdir_result copy_result : PyResult Unit)
    (source_path : SourcePath) (destination_folder : List Char) :
    PyResult LogEntry :=
  let destination_path :=
    [destination_folder, extensionFolder source_path.name, source_path.name]
  match mkdir_result with
  | .exn e => .exn e
  | .ok _ =>
    match copy_result with
    | .exn e => .exn e
    | .ok _ => .ok (.info source_path destination_path)

/-- Embedding of `copy_file` (line 12): the whole body runs inside
`try ... except Exception`, whose handler logs the error with the source
path and the cause, so the function always returns a log entry. -/
def copy_file (mkdir_result copy_result : PyResult Unit)
    (source_path : SourcePath) (destination_folder : List Char) : LogEntry :=
  match copy_file_body mkdir_result copy_result source_path
      destination_folder with
  | .ok entry => entry
  | .exn e => .error source_path e

/-- Embedding of one directory handled by `read_folder` (lines 50-55):
one `copy_file` task per file, gathered in order.  `envs` supplies each
file's filesystem behaviour (its mkdir outcome and copy outcome). -/
def read_folder (files : List SourcePath)
    (envs : List (PyResult Unit × PyResult Unit))
    (output_folder : List Char) : List LogEntry :=
  (files.zip envs).map
    (fun fe => copy_file fe.2.1 fe.2.2 fe.1 output_folder)

theorem zip_map_getElem? {A B C : Type} (g : A × B → C) (fs : List A) :
    ∀ (es : List B) (j : Nat),
      ((fs.zip es).map g)[j]? =
        (fs[j]?).bind (fun f => (es[j]?).map (fun e => g (f, e))) := by
  induction fs with
  | nil => intro es j; simp
  | cons f ft ih =>
    intro es j
    cases es with
    | nil => simp
    | cons e et =>
      cases j with
      | zero => simp
      | succ j => simpa using ih et j

theorem rfindDot_spec (name : List Char) (i : Nat)
    (h : rfindDot name = some i) :
    i < name.length ∧ name[i]? = some '.' := by
  induction name generalizing i with
  | nil => simp [rfindDot] at h
  | cons c cs ih =>
    rw [rfindDot] at h
    cases hfd : rfindDot cs with
    | some j =>
      rw [hfd] at h
      obtain rfl : j + 1 = i := by injection h
      obtain ⟨h1, h2⟩ := ih j hfd
      exact ⟨Nat.succ_lt_succ h1, by simpa using h2⟩
    | none =>
      rw [hfd] at h
      by_cases hc : c = '.'
      · rw [if_pos hc] at h
        obtain rfl : 0 = i := by injection h
        exact ⟨Nat.succ_pos _, by simp [hc]⟩
      · rw [if_neg hc] at h
        exact absurd h (by simp)

/-- The suffix of a name is empty or a dot followed by a non-empty
extension. -/
theorem pySuffix_structure (name : List Char) :
    pySuffix name = [] ∨
      ∃ ext, ext ≠ [] ∧ pySuffix name = '.' :: ext := by
  cases hfd : rfindDot name with
  | none => exact Or.inl (by simp [pySuffix, hfd])
  | some i =>
    by_cases hcond : 0 < i ∧ i < name.length - 1
    · right
      obtain ⟨hlt, hget⟩ := rfindDot_spec name i hfd
      refine ⟨name.drop (i + 1), ?_, ?_⟩
      · intro hnil
        have hlen := congrArg List.length hnil
        simp [List.length_drop] at hlen
        omega
      · rw [pySuffix, hfd]
        show (if 0 < i ∧ i < name.length - 1 then List.drop i name else []) =
          '.' :: List.drop (i + 1) name
        rw [if_pos hcond]
        rw [List.drop_eq_getElem_cons hlt]
        have : name[i] = '.' := by
          have := List.getElem?_eq_getElem hlt
          rw [this] at hget
          injection hget
        rw [this]
    · exact Or.inl (by simp [pySuffix, hfd, hcond])

/-- Claim C8 — per-file failure isolation in the file sorter: an
exception in the directory creation or in the byte copy of one file is
caught inside `copy_file` and turned into an error log entry naming the
file and the cause; `copy_file` always returns, so the log entry any
sibling file receives from `read_folder` does not depend on the failing
file's behaviour. -/
theorem c8_per_file_isolation :
    (∀ (e : List Char) (copy_result : PyResult Unit) (p : SourcePath)
      (dst : List Char),
      copy_file (PyResult.exn e) copy_result p dst = LogEntry.error p e) ∧
    (∀ (e : List Char) (p : SourcePath) (dst : List Char),
      copy_file (PyResult.ok ()) (PyResult.exn e) p dst =
        LogEntry.error p e) ∧
    (∀ (files : List SourcePath)
      (envs envs' : List (PyResult Unit × PyResult Unit))
      (dst : List Char) (j : Nat), envs[j]? = envs'[j]? →
      (read_folder files envs dst)[j]? =
        (read_folder files envs' dst)[j]?) := by
  refine ⟨fun e cr p dst => rfl, fun e p dst => rfl, ?_⟩
  intro files envs envs' dst j h
  rw [read_folder, read_folder, zip_map_getElem?, zip_map_getElem?, h]

/-- The two sibling files of the claim C8 witness. -/
def c8Files : List SourcePath :=
  [⟨"src".toList, "a.txt".toList⟩, ⟨"src".toList, "b".toList⟩]

/-- Behaviour where the first file's copy raises and the second succeeds. -/
def c8Envs : List (PyResult Unit × PyResult Unit) :=
  [(PyResult.exn ("disk full".toList), PyResult.ok ()),
   (PyResult.ok (), PyResult.ok ())]

/-- Behaviour where both files succeed. -/
def c8EnvsOk : List (PyResult Unit × PyResult Unit) :=
  [(PyResult.ok (), PyResult.ok ()), (PyResult.ok (), PyResult.ok ())]

/-- A concrete instance of claim C8: whether or not the first file's copy
raises, the second file's log entry is the same. -/
theorem c8_per_file_isolation_witness :
    c8Envs[1]? = c8EnvsOk[1]? ∧
    (read_folder c8Files c8Envs ("out".toList))[1]? =
      (read_folder c8Files c8EnvsOk ("out".toList))[1]? :=
  ⟨by decide,
   c8_per_file_isolation.2.2 c8Files c8Envs c8EnvsOk ("out".toList) 1
     (by decide)⟩

/-- Claim C9 — extension routing in the file sorter: a successfully
copied file whose name has an empty suffix lands in the destination
subfolder literally named "no_extension", and any other file lands in
the subfolder named by its extension without the leading dot; in both
cases the original file name is kept as the last path component. -/
theorem c9_extension_routing (dst : List Char) (p : SourcePath) :
    (pySuffix p.name = [] →
      copy_file (PyResult.ok ()) (PyResult.ok ()) p dst =
        LogEntry.info p [dst, noExtensionFolder, p.name]) ∧
    (pySuffix p.name ≠ [] →
      ∃ ext, ext ≠ [] ∧ pySuffix p.name = '.' :: ext ∧
        copy_file (PyResult.ok ()) (PyResult.ok ()) p dst =
          LogEntry.info p [dst, ext, p.name]) := by
  have hcf : copy_file (PyResult.ok ()) (PyResult.ok ()) p dst =
      LogEntry.info p [dst, extensionFolder p.name, p.name] := rfl
  constructor
  · intro h
    rw [hcf]
    simp [extensionFolder, h]
  · intro h
    rcases pySuffix_structure p.name with h0 | ⟨ext, hne, heq⟩
    · exact absurd h0 h
    · refine ⟨ext, hne, heq, ?_⟩
      rw [hcf]
      simp [extensionFolder, heq, hne]

/-- The source file of the claim C9 witness. -/
def c9Path : SourcePath := ⟨"docs".toList, "a.txt".toList⟩

/-- A concrete instance of claim C9: "a.txt" is routed to the subfolder
"txt" under its own name. -/
theorem c9_extension_routing_witness :
    pySuffix c9Path.name ≠ [] ∧
    (∃ ext, ext ≠ [] ∧ pySuffix c9Path.name = '.' :: ext ∧
      copy_file (PyResult.ok ()) (PyResult.ok ()) c9Path ("out".toList) =
        LogEntry.info c9Path [("out".toList), ext, c9Path.name]) :=
  ⟨by decide, (c9_extension_routing ("out".toList) c9Path).2 (by decide)⟩

